import Mathlib

/-!
Verification development for the scallop container-image analyzer.

The Go sources are embedded shallowly: pure fragments become Lean functions,
the `filepath.Walk` traversal becomes an explicit list of visit records
produced from an inductive file-tree type, `error` returns become `Except`,
byte strings become `String` (byte = `Char`, exact for the ASCII data the
analyzers inspect), and Go's `int64` sizes become `Nat` (file sizes are
non-negative).  Two external effects are parameters rather than code:
`encoding/json.Unmarshal` of a package.json manifest (a parse oracle
`String → Option NodeManifest`, whose list fields also fix the Go map
iteration order) and `time.Now` (a `Nat` argument).
-/

namespace Scallop

instance {ε α : Type} [DecidableEq ε] [DecidableEq α] : DecidableEq (Except ε α) :=
  fun x y =>
    match x, y with
    | .ok a, .ok b =>
      if h : a = b then .isTrue (by rw [h]) else .isFalse (fun hh => h (by cases hh; rfl))
    | .error a, .error b =>
      if h : a = b then .isTrue (by rw [h]) else .isFalse (fun hh => h (by cases hh; rfl))
    | .ok _, .error _ => .isFalse (fun hh => Except.noConfusion hh)
    | .error _, .ok _ => .isFalse (fun hh => Except.noConfusion hh)

/-! ### Path arithmetic: `filepath.Clean` and `filepath.Join` (Unix rules)

`internal/utils/file.go` builds each extraction target with
`filepath.Join(destDir, header.Name)` and then tests
`strings.HasPrefix(target, destDir)`.  `goClean`/`goJoin` reimplement the
lexical processing of `path/filepath` for slash-separated paths. -/

/-- Split a character list on a separator character (empty segments kept),
the segment view used by `filepath.Clean`. -/
def splitSep (sep : Char) : List Char → List Char → List (List Char)
  | [], acc => [acc.reverse]
  | c :: rest, acc =>
    if c = sep then acc.reverse :: splitSep sep rest []
    else splitSep sep rest (c :: acc)

/-- One step of `filepath.Clean`'s lexical scan.  `out` is the already
emitted segments in reverse order; `rooted` tells whether the path is
absolute (then `..` at the top is dropped). -/
def cleanPush (rooted : Bool) (out : List (List Char)) (seg : List Char) :
    List (List Char) :=
  if seg = [] ∨ seg = ['.'] then out
  else if seg = ['.', '.'] then
    match out with
    | [] => if rooted then [] else [['.', '.']]
    | last :: rest => if last = ['.', '.'] then seg :: out else rest
  else seg :: out

/-- Join segments with `/`. -/
def joinSegs : List (List Char) → List Char
  | [] => []
  | [s] => s
  | s :: rest => s ++ '/' :: joinSegs rest

/-- `filepath.Clean` for Unix paths: drop empty and `.` segments, resolve
`..` lexically, keep the result rooted when the input was. -/
def goClean (p : String) : String :=
  if p = "" then "."
  else
    let cs := p.toList
    let rooted := cs.head? = some '/'
    let segs := splitSep '/' cs []
    let out := (segs.foldl (cleanPush rooted) []).reverse
    if rooted then String.mk ('/' :: joinSegs out)
    else if out = [] then "." else String.mk (joinSegs out)

/-- `filepath.Join` of two elements: empty elements are dropped, the rest is
concatenated with `/` and cleaned — exactly Go's behaviour for two
arguments. -/
def goJoin (a b : String) : String :=
  if a = "" then if b = "" then "" else goClean b
  else if b = "" then goClean a
  else goClean (a ++ "/" ++ b)

/-- `strings.HasPrefix`: does `s` start with `pre`?  (Char-by-char, which
agrees with Go's byte-wise test on the data handled here.) -/
def strStartsWith (s pre : String) : Bool :=
  pre.toList.isPrefixOf s.toList

/-- Lexical containment: `target` lies inside the directory `destDir`
(the target is the directory itself or sits strictly below it).  This is
the property the spec's path-containment invariant asks for; `outsideDest`
is its negation. -/
def outsideDest (destDir target : String) : Bool :=
  ! (target == destDir || strStartsWith target (destDir ++ "/"))

/-! ### Archive extractor (`internal/utils/file.go`, `ExtractTar`) -/

/-- Tar entry kinds handled by `ExtractTar`'s switch. -/
inductive TarType where
  | dir
  | reg
  | symlink
  | other
deriving DecidableEq, Repr

/-- The fields of `tar.Header` that `ExtractTar` reads. -/
structure TarHeader where
  name : String
  typeflag : TarType
  linkname : String := ""
  body : String := ""
deriving DecidableEq, Repr

/-- The extraction loop of `ExtractTar`: for each entry compute
`target := filepath.Join(destDir, header.Name)`, abort with the
path-traversal error when `strings.HasPrefix(target, destDir)` fails,
otherwise create the entry (directory, regular file or symlink; other
kinds are skipped).  The result lists the created paths with their kinds;
an error aborts the whole extraction, creating nothing from that entry on. -/
def ExtractTar (destDir : String) : List TarHeader →
    Except String (List (String × TarType))
  | [] => .ok []
  | h :: rest =>
    let target := goJoin destDir h.name
    if ! strStartsWith target destDir then
      .error "invalid tar file: contains path traversal attack"
    else
      let created : List (String × TarType) :=
        match h.typeflag with
        | .dir => [(target, .dir)]
        | .reg => [(target, .reg)]
        | .symlink => [(target, .symlink)]
        | .other => []
      (ExtractTar destDir rest).map (fun l => created ++ l)

/-! ### The unpacked tree and `filepath.Walk`

The analyzers only ever see the tree through `filepath.Walk` callbacks:
for every entry below the root (the root itself is skipped by each of
them) they receive its path relative to the root and, for files, its
contents/size.  `walk` produces that callback sequence — depth first,
parent directory before its children — from an inductive tree. -/

/-- A directory entry of the unpacked image: a regular file with contents,
or a subdirectory. -/
inductive FsEntry where
  | file (name : String) (content : String)
  | dir (name : String) (children : List FsEntry)

/-- One `filepath.Walk` callback: a file (relative path and contents) or a
directory (relative path). -/
inductive Visit where
  | vfile (path : String) (content : String)
  | vdir (path : String)
deriving DecidableEq, Repr

mutual

/-- Walk a single entry whose parent directory has relative prefix `p`
(either `""` or ending in `/`). -/
def walkEntry (p : String) : FsEntry → List Visit
  | .file n c => [.vfile (p ++ n) c]
  | .dir n cs => .vdir (p ++ n) :: walkEntries (p ++ n ++ "/") cs

/-- Walk a sibling list in order. -/
def walkEntries (p : String) : List FsEntry → List Visit
  | [] => []
  | e :: es => walkEntry p e ++ walkEntries p es

end

/-- The callback sequence `filepath.Walk` delivers for the tree below the
root (root entry itself excluded), in traversal order. -/
def walk (root : List FsEntry) : List Visit :=
  walkEntries "" root

/-- The relative paths of the visited files, in walk order. -/
def filePathsOf (vs : List Visit) : List String :=
  vs.filterMap fun v =>
    match v with
    | .vfile p _ => some p
    | .vdir _ => none

/-- The relative paths of the visited directories, in walk order. -/
def dirPathsOf (vs : List Visit) : List String :=
  vs.filterMap fun v =>
    match v with
    | .vfile _ _ => none
    | .vdir p => some p

/-! ### Directory analyzer (`internal/analyzer/directory.go`, `AnalyzeDirectory`) -/

/-- `filepath.Ext` of the final path element: the suffix starting at the
last dot, `""` when the last element has no dot. -/
def goExtAux : List Char → List Char → String
  | [], _ => ""
  | c :: rest, acc =>
    if c = '/' then ""
    else if c = '.' then String.mk ('.' :: acc)
    else goExtAux rest (c :: acc)

/-- `filepath.Ext`. -/
def goExt (p : String) : String :=
  goExtAux p.toList.reverse []

/-- ASCII lowercasing of one character («A»–«Z» shifted by 32). -/
def lowerChar (c : Char) : Char :=
  if 'A' ≤ c ∧ c ≤ 'Z' then Char.ofNat (c.toNat + 32) else c

/-- `strings.ToLower`, restricted to ASCII (every pattern the analyzers
lowercase against is ASCII). -/
def asciiLower (s : String) : String :=
  String.mk (s.toList.map lowerChar)

/-- The extension bucket key used by `AnalyzeDirectory`:
`strings.ToLower(filepath.Ext(path))`, with `"[no extension]"` as the
sentinel for extension-less files. -/
def extKey (p : String) : String :=
  let ext := asciiLower (goExt p)
  if ext = "" then "[no extension]" else ext

/-- Go map `map[string]int` as an association list keyed in first-insertion
order; `bump` is `m[k]++`. -/
def bump (k : String) : List (String × Nat) → List (String × Nat)
  | [] => [(k, 1)]
  | (k', v) :: rest => if k' = k then (k', v + 1) :: rest else (k', v) :: bump k rest

/-- Sum of the counts of an extension histogram. -/
def sumVals (m : List (String × Nat)) : Nat :=
  (m.map Prod.snd).sum

/-- Go `append` on a possibly-nil slice: `none` models the nil slice, so
appending to nil produces a one-element slice. -/
def appendGo (o : Option (List String)) (x : String) : Option (List String) :=
  some (o.getD [] ++ [x])

/-- `DirectoryInfo` of `internal/analyzer/directory.go`.  The two
`omitempty` slices `Files`/`Dirs` are `Option`s: `none` is Go's nil slice. -/
structure DirectoryInfo where
  path : String
  size : Nat
  fileCount : Nat
  dirCount : Nat
  files : Option (List String)
  fileTypes : List (String × Nat)
  dirs : Option (List String)
deriving DecidableEq, Repr

/-- The body of `AnalyzeDirectory`'s walk callback for one non-root entry. -/
def stepDir (verbose : Bool) (info : DirectoryInfo) : Visit → DirectoryInfo
  | .vdir p =>
    { info with
      dirCount := info.dirCount + 1
      dirs := if verbose then appendGo info.dirs p else info.dirs }
  | .vfile p c =>
    { info with
      fileCount := info.fileCount + 1
      size := info.size + c.length
      fileTypes := bump (extKey p) info.fileTypes
      files := if verbose then appendGo info.files p else info.files }

/-- Go's byte-wise lexicographic `<` on strings, over the char lists
(identical to the byte order on the ASCII data handled here). -/
def charListLt : List Char → List Char → Bool
  | [], [] => false
  | [], _ :: _ => true
  | _ :: _, [] => false
  | a :: as, b :: bs =>
    if a < b then true else if b < a then false else charListLt as bs

/-- Go's byte-wise lexicographic `<=` on strings. -/
def charListLe : List Char → List Char → Bool
  | [], _ => true
  | _ :: _, [] => false
  | a :: as, b :: bs =>
    if a < b then true else if b < a then false else charListLe as bs

/-- Go string `<`. -/
def strLtB (a b : String) : Bool := charListLt a.toList b.toList

/-- Go string `<=`, the order `sort.Strings` sorts by. -/
def strLeB (a b : String) : Bool := charListLe a.toList b.toList

/-- The ordering relation of `sort.Strings` as a `Prop`. -/
def strLe (a b : String) : Prop := strLeB a b = true

instance : DecidableRel strLe := fun a b => instDecidableEqBool (strLeB a b) true

/-- `sort.Strings` on a possibly-nil slice.  `sort.Strings` sorts by the
total lexicographic order, under which any correctly sorted permutation of
a string list is unique, so `List.insertionSort` is an exact model. -/
def sortGo (o : Option (List String)) : Option (List String) :=
  o.map (List.insertionSort strLe)

/-- `AnalyzeDirectory`: one walk of the tree, skipping the root, counting
files and directories, accumulating file sizes and the lowercase-extension
histogram, recording every path when `verbose`, and finally sorting the
recorded path lists. -/
def AnalyzeDirectory (root : List FsEntry) (verbose : Bool) (imagePath : String) :
    DirectoryInfo :=
  let base : DirectoryInfo :=
    { path := imagePath, size := 0, fileCount := 0, dirCount := 0
      files := none, fileTypes := [], dirs := none }
  let info := (walk root).foldl (stepDir verbose) base
  if verbose then { info with files := sortGo info.files, dirs := sortGo info.dirs }
  else info

/-! ### Security analyzer (`internal/analyzer/security.go`) -/

/-- `SecurityIssue` of the security analyzer. -/
structure SecurityIssue where
  type : String
  path : String
  description : String
  severity : String
deriving DecidableEq, Repr

/-- `SecurityResult` of the security analyzer. -/
structure SecurityResult where
  issues : List SecurityIssue
  totalIssues : Nat
  highSeverity : Nat
  mediumSeverity : Nat
  lowSeverity : Nat
deriving DecidableEq, Repr

/-- One row of the `sensitivePatterns` table of `findSensitiveFiles`. -/
structure SPat where
  pattern : String
  severity : String
  desc : String
deriving DecidableEq, Repr

/-- The `sensitivePatterns` table, in source order. -/
def sensitivePatterns : List SPat :=
  [⟨".env", "HIGH", "Environment file may contain sensitive information"⟩,
   ⟨".aws/credentials", "HIGH", "AWS credentials file"⟩,
   ⟨".ssh/id_rsa", "HIGH", "SSH private key"⟩,
   ⟨".ssh/id_dsa", "HIGH", "SSH private key"⟩,
   ⟨".ssh/id_ecdsa", "HIGH", "SSH private key"⟩,
   ⟨".ssh/id_ed25519", "HIGH", "SSH private key"⟩,
   ⟨"config.json", "MEDIUM", "Configuration file may contain sensitive information"⟩,
   ⟨"credentials.json", "HIGH", "Credentials file"⟩,
   ⟨"secrets.json", "HIGH", "Secrets file"⟩,
   ⟨"password", "HIGH", "Password file"⟩,
   ⟨".npmrc", "MEDIUM", "NPM configuration file may contain tokens"⟩,
   ⟨".dockercfg", "MEDIUM", "Docker configuration file may contain credentials"⟩,
   ⟨".docker/config.json", "MEDIUM", "Docker configuration file may contain credentials"⟩,
   ⟨"id_rsa", "HIGH", "SSH private key"⟩,
   ⟨"id_dsa", "HIGH", "SSH private key"⟩,
   ⟨"id_ecdsa", "HIGH", "SSH private key"⟩,
   ⟨"id_ed25519", "HIGH", "SSH private key"⟩]

/-- `strings.Contains`: substring containment over char lists (`sub`
occurs as a prefix of some suffix of `s`). -/
def containsSub (s sub : String) : Bool :=
  s.toList.tails.any fun t => sub.toList.isPrefixOf t

/-- The first `sensitivePatterns` row whose pattern occurs in the
lowercased relative path — the loop with `break` in `findSensitiveFiles`. -/
def sensMatch (relPath : String) : Option SPat :=
  sensitivePatterns.find? fun pat => containsSub (asciiLower relPath) pat.pattern

/-- `findSensitiveFiles`: walk the tree, skip directories, and report the
first matching table row (if any) per file. -/
def findSensitiveFiles (vs : List Visit) : List SecurityIssue :=
  vs.filterMap fun v =>
    match v with
    | .vdir _ => none
    | .vfile p _ =>
      (sensMatch p).map fun pat =>
        { type := "SENSITIVE_FILE", path := p
          description := pat.desc, severity := pat.severity }

/-! #### Hardcoded-secret scanning (`findHardcodedSecrets`)

Each table row of `secretPatterns` is a regular expression of the shape
`(?i)K\s*=\s*['"]([^'"]{N,})['"]`, where the keyword part `K` is a literal
with optional `[_-]` separators.  `regexp.MatchString` asks whether a match
exists anywhere in the line; for this shape that is equivalent to: at some
position of the lowercased line one of the keyword's spellings occurs,
followed by whitespace, `=`, whitespace, a quote, and at least `N`
non-quote characters before the next quote (the quote and `=` characters
are not whitespace and not case-mapped, so greedy scanning is exact). -/

/-- One secret pattern: the lowercase spellings of its keyword part, the
minimum quoted-value length, and the row's severity and description. -/
structure SecPat where
  keywords : List String
  minLen : Nat
  severity : String
  desc : String
deriving DecidableEq, Repr

/-- All spellings of `aws[_-]?access[_-]?key[_-]?id`. -/
def awsAccessKeyIdKws : List String :=
  (["aws", "aws_", "aws-"].flatMap fun a =>
    ["access", "access_", "access-"].flatMap fun b =>
      ["key", "key_", "key-"].map fun c => a ++ b ++ c ++ "id")

/-- All spellings of `aws[_-]?secret[_-]?access[_-]?key`. -/
def awsSecretAccessKeyKws : List String :=
  (["aws", "aws_", "aws-"].flatMap fun a =>
    ["secret", "secret_", "secret-"].flatMap fun b =>
      ["access", "access_", "access-"].map fun c => a ++ b ++ c ++ "key")

/-- The `secretPatterns` table, in source order. -/
def secretPatterns : List SecPat :=
  [⟨["password"], 8, "HIGH", "Hardcoded password"⟩,
   ⟨["passwd"], 8, "HIGH", "Hardcoded password"⟩,
   ⟨["pwd"], 8, "HIGH", "Hardcoded password"⟩,
   ⟨["secret"], 8, "HIGH", "Hardcoded secret"⟩,
   ⟨["apikey", "api_key", "api-key"], 8, "HIGH", "Hardcoded API key"⟩,
   ⟨["accesskey", "access_key", "access-key"], 8, "HIGH", "Hardcoded access key"⟩,
   ⟨["token"], 8, "HIGH", "Hardcoded token"⟩,
   ⟨awsAccessKeyIdKws, 16, "HIGH", "Hardcoded AWS access key"⟩,
   ⟨awsSecretAccessKeyKws, 16, "HIGH", "Hardcoded AWS secret key"⟩]

/-- Go regexp's `\s` class: space, tab, newline, form feed, carriage
return. -/
def isSpaceGo (c : Char) : Bool :=
  c = ' ' || c = Char.ofNat 9 || c = Char.ofNat 10 || c = Char.ofNat 12 || c = Char.ofNat 13

/-- A single or double quote, the `['"]` class. -/
def isQuote (c : Char) : Bool :=
  c = Char.ofNat 39 || c = Char.ofNat 34

/-- Number of characters before the first quote, `none` when no quote
follows. -/
def quoteDist : List Char → Option Nat
  | [] => none
  | c :: rest => if isQuote c then some 0 else (quoteDist rest).map (· + 1)

/-- Match `\s*=\s*['"][^'"]{n,}['"]` against the characters after the
keyword. -/
def matchTail (minLen : Nat) (cs : List Char) : Bool :=
  match cs.dropWhile isSpaceGo with
  | '=' :: rest =>
    match rest.dropWhile isSpaceGo with
    | c :: rest2 =>
      isQuote c &&
        (match quoteDist rest2 with
         | some d => decide (minLen ≤ d)
         | none => false)
    | [] => false
  | _ => false

/-- Strip a literal keyword from the front of the characters. -/
def stripKw : List Char → List Char → Option (List Char)
  | [], cs => some cs
  | _ :: _, [] => none
  | k :: ks, c :: cs => if k = c then stripKw ks cs else none

/-- Does the pattern match starting exactly at these characters? -/
def matchesAt (p : SecPat) (cs : List Char) : Bool :=
  p.keywords.any fun kw =>
    match stripKw kw.toList cs with
    | some rest => matchTail p.minLen rest
    | none => false

/-- `regexp.MatchString` for a secret pattern: a match starting at some
position of the lowercased line. -/
def lineMatches (p : SecPat) (line : String) : Bool :=
  ((asciiLower line).toList).tails.any (matchesAt p)

/-- The first matching pattern for a line, in table order — the inner loop
with `break` of `findHardcodedSecrets`. -/
def scanLine (line : String) : Option SecPat :=
  secretPatterns.find? fun p => lineMatches p line

/-- `bufio.Scanner` line splitting: split on newline, strip one trailing
carriage return per line, no empty final token. -/
def splitNlAux : List Char → List Char → List (List Char)
  | [], acc => [acc.reverse]
  | c :: rest, acc =>
    if c = Char.ofNat 10 then acc.reverse :: splitNlAux rest []
    else splitNlAux rest (c :: acc)

/-- Strip one trailing carriage return. -/
def dropCr (l : List Char) : List Char :=
  match l.reverse with
  | c :: rest => if c = Char.ofNat 13 then rest.reverse else l
  | [] => l

/-- The lines `bufio.Scanner` yields for a file's contents. -/
def goLines (s : String) : List String :=
  let raw := splitNlAux s.toList []
  let raw := if raw.getLast? = some [] then raw.dropLast else raw
  raw.map fun l => String.mk (dropCr l)

/-- The known-binary extension set of `isBinaryFile`. -/
def binaryExts : List String :=
  [".jpg", ".jpeg", ".png", ".gif", ".bmp",
   ".pdf", ".zip", ".tar", ".gz", ".tgz",
   ".rar", ".7z", ".exe", ".dll", ".so",
   ".dylib", ".bin", ".dat", ".iso", ".img"]

/-- `isBinaryFile`: known-binary extension, or a null byte among the first
512 bytes of the contents (an empty read reports non-binary). -/
def isBinaryFile (path content : String) : Bool :=
  if binaryExts.contains (asciiLower (goExt path)) then true
  else if content = "" then false
  else (content.toList.take 512).any (· = Char.ofNat 0)

/-- The findings `findHardcodedSecrets` emits for one text file: scan the
lines in order; the first matching pattern of a line yields one finding at
`relPath:lineNumber`, and no further pattern is tried for that line. -/
def fileSecrets (relPath content : String) : List SecurityIssue :=
  (List.enumFrom 1 (goLines content)).filterMap fun il =>
    (scanLine il.2).map fun p =>
      { type := "HARDCODED_SECRET", path := relPath ++ ":" ++ toString il.1
        description := p.desc, severity := p.severity }

/-- `findHardcodedSecrets`: walk the tree, skip directories and binary
files, scan every other file line by line. -/
def findHardcodedSecrets (vs : List Visit) : List SecurityIssue :=
  vs.flatMap fun v =>
    match v with
    | .vdir _ => []
    | .vfile p c => if isBinaryFile p c then [] else fileSecrets p c

/-! #### Vulnerable packages (`findVulnerablePackages`)

`checkNodePackages` decodes package.json with `encoding/json` and then
ranges over the two Go maps `dependencies` and `devDependencies`.  JSON
decoding is modelled as a parse oracle `String → Option NodeManifest`
(`none` is a decode error, which the walk callback swallows for that
file); the oracle's two lists carry the map entries in the iteration
order Go happens to use for this run, which Go randomizes. -/

/-- The decoded `package.json` fields, each map listed in its (run-chosen)
iteration order. -/
structure NodeManifest where
  deps : List (String × String)
  devDeps : List (String × String)
deriving DecidableEq, Repr

/-- One row of the hardcoded vulnerable-package tables: the stored bound
string (as written in the source, e.g. `"<4.17.21"`), severity,
description and fixed version. -/
structure VulnEntry where
  name : String
  version : String
  severity : String
  desc : String
  fixVersion : String
deriving DecidableEq, Repr

/-- The `vulnPackages` map of `checkNodePackages` (map-literal rows; the
lookup by exact name makes the literal order irrelevant). -/
def nodeVulns : List VulnEntry :=
  [⟨"lodash", "<4.17.21", "HIGH", "Prototype Pollution in lodash", ">=4.17.21"⟩,
   ⟨"minimist", "<1.2.6", "HIGH", "Prototype Pollution in minimist", ">=1.2.6"⟩,
   ⟨"node-fetch", "<2.6.7", "HIGH", "Exposure of Sensitive Information in node-fetch", ">=2.6.7"⟩,
   ⟨"axios", "<0.21.1", "HIGH", "Server-Side Request Forgery in axios", ">=0.21.1"⟩]

/-- The `vulnPackages` map of `checkPythonPackages`. -/
def pyVulns : List VulnEntry :=
  [⟨"django", "<3.2.14", "HIGH", "SQL Injection in Django", ">=3.2.14"⟩,
   ⟨"flask", "<2.0.1", "MEDIUM", "Open Redirect in Flask", ">=2.0.1"⟩,
   ⟨"requests", "<2.26.0", "MEDIUM", "CRLF Injection in Requests", ">=2.26.0"⟩,
   ⟨"pillow", "<9.0.0", "HIGH", "Buffer Overflow in Pillow", ">=9.0.0"⟩]

/-- Strip one leading `^` or `~` from a declared version string. -/
def stripCaretTilde (v : String) : String :=
  match v.toList with
  | '^' :: rest => String.mk rest
  | '~' :: rest => String.mk rest
  | _ => v

/-- The per-dependency body of `checkNodePackages`' range loops: look the
name up in the table, strip `^`/`~`, and flag when the version string is
byte-wise less than the stored bound string.  `tag` is `""` for
`dependencies` and `" (dev)"` for `devDependencies`. -/
def checkNodeDep (tag : String) (nv : String × String) : Option SecurityIssue :=
  match nodeVulns.find? fun e => e.name = nv.1 with
  | none => none
  | some vuln =>
    if strLtB (stripCaretTilde nv.2) vuln.version then
      some { type := "VULNERABLE_PACKAGE"
             path := "package.json: " ++ nv.1 ++ "@" ++ stripCaretTilde nv.2 ++ tag
             description := vuln.desc ++ ". Update to " ++ vuln.fixVersion
             severity := vuln.severity }
    else none

/-- `checkNodePackages` on a decoded manifest: the `dependencies` findings
then the `devDependencies` findings, each in map-iteration order. -/
def checkNodePackages (m : NodeManifest) : List SecurityIssue :=
  m.deps.filterMap (checkNodeDep "") ++ m.devDeps.filterMap (checkNodeDep " (dev)")

/-- `strings.TrimSpace` (ASCII whitespace). -/
def trimGo (s : String) : String :=
  String.mk (((s.toList.dropWhile isSpaceGo).reverse.dropWhile isSpaceGo).reverse)

/-- `strings.Split(line, "==")`: leftmost-first splitting on the two-char
separator. -/
def splitEqEq : List Char → List Char → List (List Char)
  | [], acc => [acc.reverse]
  | '=' :: '=' :: rest, acc => acc.reverse :: splitEqEq rest []
  | c :: rest, acc => splitEqEq rest (c :: acc)

/-- The per-line body of `checkPythonPackages`: skip comments and blank
lines, parse `name==version`, and flag table hits whose version string is
byte-wise below the stored bound string. -/
def checkPythonLine (line : String) : Option SecurityIssue :=
  if strStartsWith line "#" || trimGo line = "" then none
  else
    match splitEqEq line.toList [] with
    | [n, v] =>
      match pyVulns.find? fun e => e.name = trimGo (String.mk n) with
      | none => none
      | some vuln =>
        if strLtB (trimGo (String.mk v)) vuln.version then
          some { type := "VULNERABLE_PACKAGE"
                 path := "requirements.txt: " ++ trimGo (String.mk n) ++ "==" ++
                   trimGo (String.mk v)
                 description := vuln.desc ++ ". Update to " ++ vuln.fixVersion
                 severity := vuln.severity }
        else none
    | _ => none

/-- `checkPythonPackages` over a requirements.txt contents. -/
def checkPythonPackages (content : String) : List SecurityIssue :=
  (goLines content).filterMap checkPythonLine

/-- `filepath.Base` of a relative path: the part after the last slash. -/
def baseNameAux : List Char → List Char → List Char
  | [], acc => acc
  | c :: rest, acc => if c = '/' then acc else baseNameAux rest (c :: acc)

/-- `filepath.Base` (for the nonempty slash-relative paths `walk` makes). -/
def baseName (p : String) : String :=
  String.mk (baseNameAux p.toList.reverse [])

/-- `findVulnerablePackages`: walk the tree; on each file named exactly
like one of the four manifest kinds run its checker (a failed decode
skips the file); `Gemfile.lock` and `go.mod` contribute nothing;
every finding's location is then rewritten to the manifest's relative
path. -/
def findVulnerablePackages (parse : String → Option NodeManifest)
    (vs : List Visit) : List SecurityIssue :=
  vs.flatMap fun v =>
    match v with
    | .vdir _ => []
    | .vfile p c =>
      let issues :=
        if baseName p = "package.json" then
          match parse c with
          | some m => checkNodePackages m
          | none => []
        else if baseName p = "requirements.txt" then checkPythonPackages c
        else []
      issues.map fun i => { i with path := p }

/-- The severity tally loop of `AnalyzeSecurity`: high, medium and low
counters over the concatenated finding list. -/
def tally (issues : List SecurityIssue) : Nat × Nat × Nat :=
  issues.foldl
    (fun acc i =>
      if i.severity = "HIGH" then (acc.1 + 1, acc.2.1, acc.2.2)
      else if i.severity = "MEDIUM" then (acc.1, acc.2.1 + 1, acc.2.2)
      else if i.severity = "LOW" then (acc.1, acc.2.1, acc.2.2 + 1)
      else acc)
    (0, 0, 0)

/-- `AnalyzeSecurity`: sensitive files, then hardcoded secrets, then
vulnerable packages, then the severity tally and the total. -/
def AnalyzeSecurity (parse : String → Option NodeManifest)
    (root : List FsEntry) : SecurityResult :=
  let issues :=
    findSensitiveFiles (walk root) ++ findHardcodedSecrets (walk root) ++
      findVulnerablePackages parse (walk root)
  let t := tally issues
  { issues := issues, totalIssues := issues.length
    highSeverity := t.1, mediumSeverity := t.2.1, lowSeverity := t.2.2 }

/-! ### Result aggregator (`AnalyzeImage`) -/

/-- `LayerSize` of the size analyzer. -/
structure LayerSize where
  id : String
  size : Nat
deriving DecidableEq, Repr

/-- `FileSize` of the size analyzer. -/
structure FileSize where
  path : String
  size : Nat
deriving DecidableEq, Repr

/-- `SizeInfo` of the size analyzer. -/
structure SizeInfo where
  totalSize : Nat
  layerSizes : List LayerSize
  largestFiles : List FileSize
  largestDirs : List DirectoryInfo
  fileTypeBreakdown : List (String × Nat)
deriving DecidableEq, Repr

/-- `AnalysisResult`: the aggregate report.  Each `omitempty` sub-report
pointer is an `Option`. -/
structure AnalysisResult where
  imagePath : String
  analyzedAt : Nat
  directoryInfo : Option DirectoryInfo
  securityInfo : Option SecurityResult
  sizeInfo : Option SizeInfo
deriving DecidableEq, Repr

/-- `AnalyzeImage`: build the report shell, then run each analyzer in
turn; a failing analyzer only logs and leaves its field nil, a succeeding
one stores its report.  The function has no error return at all.  The
three analyzer outcomes are arguments (each an `Except`, the shape of the
Go `(report, err)` pairs); `now` stands for `time.Now()`. -/
def AnalyzeImage (imagePath : String) (now : Nat)
    (dirRes : Except String DirectoryInfo)
    (secRes : Except String SecurityResult)
    (sizeRes : Except String SizeInfo) : AnalysisResult :=
  let result : AnalysisResult :=
    { imagePath := imagePath, analyzedAt := now
      directoryInfo := none, securityInfo := none, sizeInfo := none }
  let result :=
    match dirRes with
    | .ok d => { result with directoryInfo := some d }
    | .error _ => result
  let result :=
    match secRes with
    | .ok s => { result with securityInfo := some s }
    | .error _ => result
  let result :=
    match sizeRes with
    | .ok z => { result with sizeInfo := some z }
    | .error _ => result
  result

/-! ### Auxiliary notions used by the statements -/

/-- Is this visit a file? -/
def isFileV : Visit → Bool
  | .vfile _ _ => true
  | .vdir _ => false

/-- Is this visit a directory? -/
def isDirV : Visit → Bool
  | .vfile _ _ => false
  | .vdir _ => true

/-- A finding's severity is one of the three levels the tally loop counts. -/
def sev3 (i : SecurityIssue) : Prop :=
  i.severity = "HIGH" ∨ i.severity = "MEDIUM" ∨ i.severity = "LOW"

/-- Two decoded manifests (or decode failures) that denote the same JSON
object, merely enumerated in different Go map iteration orders. -/
def ManifestPerm : Option NodeManifest → Option NodeManifest → Prop
  | none, none => True
  | some a, some b => a.deps.Perm b.deps ∧ a.devDeps.Perm b.devDeps
  | _, _ => False

/-- Two parse oracles that decode every contents to the same JSON object,
up to map iteration order — the situation of two runs of the program over
one unchanged tree. -/
def OracleEquiv (p1 p2 : String → Option NodeManifest) : Prop :=
  ∀ s, ManifestPerm (p1 s) (p2 s)

instance : IsTotal String strLe := by
  constructor
  suffices h : ∀ as bs : List Char, charListLe as bs = true ∨ charListLe bs as = true by
    intro a b; exact h a.toList b.toList
  intro as
  induction as with
  | nil => intro bs; left; rfl
  | cons a as ih =>
    intro bs
    cases bs with
    | nil => right; rfl
    | cons b bs' =>
      by_cases hab : a < b
      · left; simp [charListLe, hab]
      · by_cases hba : b < a
        · right; simp [charListLe, hba]
        · rcases ih bs' with h | h
          · left; simp [charListLe, hab, hba, h]
          · right; simp [charListLe, hab, hba, h]

instance : IsTrans String strLe := by
  constructor
  suffices h : ∀ as bs cs : List Char, charListLe as bs = true →
      charListLe bs cs = true → charListLe as cs = true by
    intro a b c h1 h2; exact h a.toList b.toList c.toList h1 h2
  intro as
  induction as with
  | nil => intro bs cs h1 h2; rfl
  | cons a as ih =>
    intro bs cs h1 h2
    cases bs with
    | nil => simp [charListLe] at h1
    | cons b bs' =>
      cases cs with
      | nil => simp [charListLe] at h2
      | cons c cs' =>
        by_cases hab : a < b
        · by_cases hbc : b < c
          · simp [charListLe, lt_trans hab hbc]
          · by_cases hcb : c < b
            · simp [charListLe, hbc, hcb] at h2
            · have hbceq : b = c := le_antisymm (not_lt.mp hcb) (not_lt.mp hbc)
              subst hbceq
              simp [charListLe, hab]
        · by_cases hba : b < a
          · simp [charListLe, hab, hba] at h1
          · have habeq : a = b := le_antisymm (not_lt.mp hba) (not_lt.mp hab)
            subst habeq
            simp only [charListLe, lt_irrefl, if_false] at h1 h2 ⊢
            by_cases hac : a < c
            · simp [hac]
            · by_cases hca : c < a
              · simp [hac, hca] at h2
              · have haceq : a = c := le_antisymm (not_lt.mp hca) (not_lt.mp hac)
                subst haceq
                simp only [lt_irrefl, if_false] at h1 h2 ⊢
                exact ih bs' cs' h1 h2

/-! ## Lemmas about the directory analyzer -/

theorem sumVals_nil : sumVals [] = 0 := rfl

theorem sumVals_bump (k : String) (m : List (String × Nat)) :
    sumVals (bump k m) = sumVals m + 1 := by
  induction m with
  | nil => simp [bump, sumVals]
  | cons kv rest ih =>
    by_cases h : kv.1 = k
    · simp [bump, h, sumVals]
      omega
    · simp only [bump, h, if_false]
      simp [sumVals] at ih ⊢
      omega

theorem foldl_stepDir_fileCount (vb : Bool) (vs : List Visit) (info : DirectoryInfo) :
    (vs.foldl (stepDir vb) info).fileCount = info.fileCount + vs.countP isFileV := by
  induction vs generalizing info with
  | nil => simp
  | cons v rest ih =>
    cases v <;> (simp [stepDir, ih, List.countP_cons, isFileV]; try omega)

theorem foldl_stepDir_dirCount (vb : Bool) (vs : List Visit) (info : DirectoryInfo) :
    (vs.foldl (stepDir vb) info).dirCount = info.dirCount + vs.countP isDirV := by
  induction vs generalizing info with
  | nil => simp
  | cons v rest ih =>
    cases v <;> (simp [stepDir, ih, List.countP_cons, isDirV]; try omega)

theorem foldl_stepDir_sumVals (vb : Bool) (vs : List Visit) (info : DirectoryInfo) :
    sumVals (vs.foldl (stepDir vb) info).fileTypes =
      sumVals info.fileTypes + vs.countP isFileV := by
  induction vs generalizing info with
  | nil => simp
  | cons v rest ih =>
    cases v <;> (simp [stepDir, ih, List.countP_cons, isFileV, sumVals_bump]; try omega)

theorem countP_file_dir (vs : List Visit) :
    vs.countP isFileV + vs.countP isDirV = vs.length := by
  induction vs with
  | nil => simp
  | cons v rest ih =>
    cases v <;> simp [List.countP_cons, isFileV, isDirV] <;> omega

theorem foldl_stepDir_files_true (vs : List Visit) (info : DirectoryInfo) :
    (vs.foldl (stepDir true) info).files.getD [] =
      info.files.getD [] ++ filePathsOf vs := by
  induction vs generalizing info with
  | nil => simp [filePathsOf]
  | cons v rest ih =>
    cases v <;> simp [stepDir, ih, filePathsOf, appendGo]

theorem foldl_stepDir_dirs_true (vs : List Visit) (info : DirectoryInfo) :
    (vs.foldl (stepDir true) info).dirs.getD [] =
      info.dirs.getD [] ++ dirPathsOf vs := by
  induction vs generalizing info with
  | nil => simp [dirPathsOf]
  | cons v rest ih =>
    cases v <;> simp [stepDir, ih, dirPathsOf, appendGo]

theorem foldl_stepDir_files_false (vs : List Visit) (info : DirectoryInfo) :
    (vs.foldl (stepDir false) info).files = info.files := by
  induction vs generalizing info with
  | nil => simp
  | cons v rest ih => cases v <;> simp [stepDir, ih]

theorem foldl_stepDir_dirs_false (vs : List Visit) (info : DirectoryInfo) :
    (vs.foldl (stepDir false) info).dirs = info.dirs := by
  induction vs generalizing info with
  | nil => simp
  | cons v rest ih => cases v <;> simp [stepDir, ih]

theorem sortGo_getD (o : Option (List String)) :
    (sortGo o).getD [] = List.insertionSort strLe (o.getD []) := by
  cases o <;> simp [sortGo, List.insertionSort]

/-- Claim C4: for every input tree and verbosity flag, the directory
report satisfies `FileCount + DirCount = number of non-root entries
visited` and the extension-histogram counts sum to `FileCount`. -/
theorem c4_directory_count_invariants (root : List FsEntry) (verbose : Bool) (ip : String) :
    (AnalyzeDirectory root verbose ip).fileCount +
        (AnalyzeDirectory root verbose ip).dirCount = (walk root).length ∧
    sumVals (AnalyzeDirectory root verbose ip).fileTypes =
      (AnalyzeDirectory root verbose ip).fileCount := by
  have hf := foldl_stepDir_fileCount verbose (walk root)
  have hd := foldl_stepDir_dirCount verbose (walk root)
  have hs := foldl_stepDir_sumVals verbose (walk root)
  have hc := countP_file_dir (walk root)
  unfold AnalyzeDirectory
  split <;> simp [hf, hd, hs, sumVals_nil] <;> omega

/-- Claim C7: with the verbosity flag set, the report's `Files` and `Dirs`
lists are exactly the visited file and directory relative paths, sorted
lexicographically ascending; without the flag both lists are absent
(Go's nil slice, `none`), not merely empty. -/
theorem c7_verbose_path_lists (root : List FsEntry) (ip : String) :
    (AnalyzeDirectory root false ip).files = none ∧
    (AnalyzeDirectory root false ip).dirs = none ∧
    List.Sorted strLe ((AnalyzeDirectory root true ip).files.getD []) ∧
    List.Sorted strLe ((AnalyzeDirectory root true ip).dirs.getD []) ∧
    ((AnalyzeDirectory root true ip).files.getD []).Perm (filePathsOf (walk root)) ∧
    ((AnalyzeDirectory root true ip).dirs.getD []).Perm (dirPathsOf (walk root)) := by
  refine ⟨?_, ?_, ?_, ?_, ?_, ?_⟩
  · simp [AnalyzeDirectory, foldl_stepDir_files_false]
  · simp [AnalyzeDirectory, foldl_stepDir_dirs_false]
  · simp only [AnalyzeDirectory, if_true, sortGo_getD]
    exact List.sorted_insertionSort strLe _
  · simp only [AnalyzeDirectory, if_true, sortGo_getD]
    exact List.sorted_insertionSort strLe _
  · simp only [AnalyzeDirectory, if_true, sortGo_getD]
    rw [foldl_stepDir_files_true]
    simpa using List.perm_insertionSort strLe (filePathsOf (walk root))
  · simp only [AnalyzeDirectory, if_true, sortGo_getD]
    rw [foldl_stepDir_dirs_true]
    simpa using List.perm_insertionSort strLe (dirPathsOf (walk root))

/-! ## Lemmas about the security analyzer's severities -/

theorem sens_severity (vs : List Visit) : ∀ i ∈ findSensitiveFiles vs, sev3 i := by
  intro i hi
  simp only [findSensitiveFiles, List.mem_filterMap] at hi
  obtain ⟨v, _, hv⟩ := hi
  cases v with
  | vdir p => simp at hv
  | vfile p c =>
    simp only [Option.map_eq_some'] at hv
    obtain ⟨pat, hfind, hmk⟩ := hv
    unfold sensMatch at hfind
    have hmem := List.mem_of_find?_eq_some hfind
    have htab : ∀ x ∈ sensitivePatterns,
        x.severity = "HIGH" ∨ x.severity = "MEDIUM" ∨ x.severity = "LOW" := by decide
    subst hmk
    simpa [sev3] using htab pat hmem

theorem secrets_severity (vs : List Visit) : ∀ i ∈ findHardcodedSecrets vs, sev3 i := by
  intro i hi
  simp only [findHardcodedSecrets, List.mem_flatMap] at hi
  obtain ⟨v, _, hv⟩ := hi
  cases v with
  | vdir p => simp at hv
  | vfile p c =>
    dsimp only at hv
    by_cases hb : isBinaryFile p c
    · simp [hb] at hv
    · rw [if_neg hb] at hv
      simp only [fileSecrets, List.mem_filterMap] at hv
      obtain ⟨il, _, hil⟩ := hv
      simp only [Option.map_eq_some'] at hil
      obtain ⟨pat, hscan, hmk⟩ := hil
      unfold scanLine at hscan
      have hmem := List.mem_of_find?_eq_some hscan
      have htab : ∀ x ∈ secretPatterns, x.severity = "HIGH" := by decide
      subst hmk
      simp [sev3]
      left
      exact htab pat hmem

theorem checkNodeDep_severity (tag : String) (nv : String × String) (i : SecurityIssue)
    (h : checkNodeDep tag nv = some i) : i.severity = "HIGH" := by
  unfold checkNodeDep at h
  split at h
  · simp at h
  · next vuln hfind =>
    split at h
    · have hmem := List.mem_of_find?_eq_some hfind
      have htab : ∀ x ∈ nodeVulns, x.severity = "HIGH" := by decide
      injection h with h2
      subst h2
      simpa using htab vuln hmem
    · simp at h

theorem checkPythonLine_severity (line : String) (i : SecurityIssue)
    (h : checkPythonLine line = some i) :
    i.severity = "HIGH" ∨ i.severity = "MEDIUM" := by
  unfold checkPythonLine at h
  split at h
  · simp at h
  · split at h
    · next n v =>
      split at h
      · simp at h
      · next vuln hfind =>
        split at h
        · have hmem := List.mem_of_find?_eq_some hfind
          have htab : ∀ x ∈ pyVulns,
              x.severity = "HIGH" ∨ x.severity = "MEDIUM" := by decide
          injection h with h2
          subst h2
          simpa using htab vuln hmem
        · simp at h
    · simp at h

theorem vuln_severity (parse : String → Option NodeManifest) (vs : List Visit) :
    ∀ i ∈ findVulnerablePackages parse vs, sev3 i := by
  intro i hi
  simp only [findVulnerablePackages, List.mem_flatMap] at hi
  obtain ⟨v, _, hv⟩ := hi
  cases v with
  | vdir p => simp at hv
  | vfile p c =>
    simp only [List.mem_map] at hv
    obtain ⟨i0, hi0, hmk⟩ := hv
    subst hmk
    simp only [sev3]
    show i0.severity = "HIGH" ∨ i0.severity = "MEDIUM" ∨ i0.severity = "LOW"
    by_cases h1 : baseName p = "package.json"
    · rw [if_pos h1] at hi0
      cases hp : parse c with
      | none => rw [hp] at hi0; simp at hi0
      | some m =>
        rw [hp] at hi0
        simp only [checkNodePackages, List.mem_append, List.mem_filterMap] at hi0
        rcases hi0 with ⟨nv, _, hdep⟩ | ⟨nv, _, hdep⟩ <;>
          exact Or.inl (checkNodeDep_severity _ nv i0 hdep)
    · rw [if_neg h1] at hi0
      by_cases h2 : baseName p = "requirements.txt"
      · rw [if_pos h2] at hi0
        simp only [checkPythonPackages, List.mem_filterMap] at hi0
        obtain ⟨line, _, hline⟩ := hi0
        rcases checkPythonLine_severity line i0 hline with h | h
        · exact Or.inl h
        · exact Or.inr (Or.inl h)
      · rw [if_neg h2] at hi0
        simp at hi0

theorem tally_go (l : List SecurityIssue) (acc : Nat × Nat × Nat) :
    l.foldl
      (fun acc i =>
        if i.severity = "HIGH" then (acc.1 + 1, acc.2.1, acc.2.2)
        else if i.severity = "MEDIUM" then (acc.1, acc.2.1 + 1, acc.2.2)
        else if i.severity = "LOW" then (acc.1, acc.2.1, acc.2.2 + 1)
        else acc) acc =
      (acc.1 + l.countP (fun i => i.severity == "HIGH"),
       acc.2.1 + l.countP (fun i => i.severity == "MEDIUM"),
       acc.2.2 + l.countP (fun i => i.severity == "LOW")) := by
  induction l generalizing acc with
  | nil => simp
  | cons i t ih =>
    simp only [List.foldl_cons, List.countP_cons, beq_iff_eq]
    by_cases h1 : i.severity = "HIGH"
    · simp [h1, ih, Prod.ext_iff]
      omega
    · by_cases h2 : i.severity = "MEDIUM"
      · simp [h1, h2, ih, Prod.ext_iff]
        omega
      · by_cases h3 : i.severity = "LOW"
        · simp [h1, h2, h3, ih, Prod.ext_iff]
          omega
        · simp [h1, h2, h3, ih, Prod.ext_iff]

theorem tally_counts (l : List SecurityIssue) :
    tally l =
      (l.countP (fun i => i.severity == "HIGH"),
       l.countP (fun i => i.severity == "MEDIUM"),
       l.countP (fun i => i.severity == "LOW")) := by
  unfold tally
  rw [tally_go]
  simp

theorem countP_sev3_sum (l : List SecurityIssue) (h : ∀ i ∈ l, sev3 i) :
    l.countP (fun i => i.severity == "HIGH") +
        l.countP (fun i => i.severity == "MEDIUM") +
        l.countP (fun i => i.severity == "LOW") = l.length := by
  induction l with
  | nil => simp
  | cons i t ih =>
    have hi := h i (by simp)
    have ht : ∀ x ∈ t, sev3 x := fun x hx => h x (by simp [hx])
    have iht := ih ht
    rcases hi with h1 | h2 | h3
    · simp [List.countP_cons, beq_iff_eq, h1]
      omega
    · simp [List.countP_cons, beq_iff_eq, h2]
      omega
    · simp [List.countP_cons, beq_iff_eq, h3]
      omega

theorem all_issue_sev3 (parse : String → Option NodeManifest) (root : List FsEntry) :
    ∀ i ∈ (AnalyzeSecurity parse root).issues, sev3 i := by
  intro i hi
  simp only [AnalyzeSecurity, List.mem_append] at hi
  rcases hi with (h | h) | h
  · exact sens_severity _ i h
  · exact secrets_severity _ i h
  · exact vuln_severity _ _ i h

/-- Claim C5: for every finding set the security analyzer produces,
`TotalIssues` equals the number of findings and the three severity
counters sum to `TotalIssues`. -/
theorem c5_severity_tally (parse : String → Option NodeManifest) (root : List FsEntry) :
    (AnalyzeSecurity parse root).totalIssues = (AnalyzeSecurity parse root).issues.length ∧
    (AnalyzeSecurity parse root).highSeverity + (AnalyzeSecurity parse root).mediumSeverity +
        (AnalyzeSecurity parse root).lowSeverity = (AnalyzeSecurity parse root).totalIssues := by
  refine ⟨rfl, ?_⟩
  have h3 := all_issue_sev3 parse root
  simp only [AnalyzeSecurity] at h3 ⊢
  rw [tally_counts]
  exact countP_sev3_sum _ h3

/-! ## Determinism up to Go map iteration order (claim C9) -/

theorem checkNodePackages_perm {m1 m2 : NodeManifest}
    (hd : m1.deps.Perm m2.deps) (hv : m1.devDeps.Perm m2.devDeps) :
    (checkNodePackages m1).Perm (checkNodePackages m2) :=
  (hd.filterMap _).append (hv.filterMap _)

theorem vuln_perm (p1 p2 : String → Option NodeManifest) (h : OracleEquiv p1 p2)
    (vs : List Visit) :
    (findVulnerablePackages p1 vs).Perm (findVulnerablePackages p2 vs) := by
  induction vs with
  | nil => simp [findVulnerablePackages]
  | cons v rest ih =>
    simp only [findVulnerablePackages] at ih ⊢
    rw [List.flatMap_cons, List.flatMap_cons]
    refine List.Perm.append ?_ ih
    cases v with
    | vdir p => simp
    | vfile p c =>
      dsimp only
      by_cases h1 : baseName p = "package.json"
      · rw [if_pos h1, if_pos h1]
        have hc := h c
        cases hp1 : p1 c with
        | none =>
          cases hp2 : p2 c with
          | none => simp
          | some m2 => rw [hp1, hp2] at hc; simp [ManifestPerm] at hc
        | some m1 =>
          cases hp2 : p2 c with
          | none => rw [hp1, hp2] at hc; simp [ManifestPerm] at hc
          | some m2 =>
            rw [hp1, hp2] at hc
            simp only [ManifestPerm] at hc
            exact (checkNodePackages_perm hc.1 hc.2).map _
      · rw [if_neg h1, if_neg h1]

/-- Claim C9 (amended): the directory and size analyses depend only on the
tree, but the security analysis also depends on Go's randomized map
iteration order over each manifest's dependency maps; for any two runs
over the same unchanged tree (same parse results up to map order) the
finding lists are permutations of each other with identical totals and
severity tallies — byte-identical reports are not guaranteed. -/
theorem c9_security_deterministic_up_to_map_order (root : List FsEntry)
    (p1 p2 : String → Option NodeManifest) (h : OracleEquiv p1 p2) :
    (AnalyzeSecurity p1 root).issues.Perm (AnalyzeSecurity p2 root).issues ∧
    (AnalyzeSecurity p1 root).totalIssues = (AnalyzeSecurity p2 root).totalIssues ∧
    (AnalyzeSecurity p1 root).highSeverity = (AnalyzeSecurity p2 root).highSeverity ∧
    (AnalyzeSecurity p1 root).mediumSeverity = (AnalyzeSecurity p2 root).mediumSeverity ∧
    (AnalyzeSecurity p1 root).lowSeverity = (AnalyzeSecurity p2 root).lowSeverity := by
  have hperm :=
    List.Perm.append_left
      (findSensitiveFiles (walk root) ++ findHardcodedSecrets (walk root))
      (vuln_perm p1 p2 h (walk root))
  simp only [AnalyzeSecurity]
  rw [tally_counts, tally_counts]
  exact ⟨hperm, hperm.length_eq, List.Perm.countP_eq _ hperm,
    List.Perm.countP_eq _ hperm, List.Perm.countP_eq _ hperm⟩

/-- Claim C9 counterexample: one package.json whose dependency map holds
two flagged packages; the two Go map iteration orders (which encode the
same JSON map — the enumerations are permutations of each other) make the
security analyzer emit its two findings in different orders, so rerunning
the analyzer over the unchanged tree is not guaranteed to reproduce an
identical report. -/
theorem c9_counterexample :
    ([("lodash", "4.17.20"), ("minimist", "1.2.5")] : List (String × String)).Perm
      [("minimist", "1.2.5"), ("lodash", "4.17.20")] ∧
    AnalyzeSecurity (fun _ => some ⟨[("lodash", "4.17.20"), ("minimist", "1.2.5")], []⟩)
        [.file "package.json" "x"] ≠
      AnalyzeSecurity (fun _ => some ⟨[("minimist", "1.2.5"), ("lodash", "4.17.20")], []⟩)
        [.file "package.json" "x"] :=
  ⟨List.Perm.swap _ _ _, by decide⟩

/-- Witness for C9's amended theorem at a concrete tree and pair of
map-equivalent oracles. -/
theorem c9_security_deterministic_witness :
    OracleEquiv (fun _ => some ⟨[("lodash", "4.17.20"), ("minimist", "1.2.5")], []⟩)
      (fun _ => some ⟨[("minimist", "1.2.5"), ("lodash", "4.17.20")], []⟩) ∧
    ((AnalyzeSecurity (fun _ => some ⟨[("lodash", "4.17.20"), ("minimist", "1.2.5")], []⟩)
        [.file "package.json" "x"]).issues.Perm
      (AnalyzeSecurity (fun _ => some ⟨[("minimist", "1.2.5"), ("lodash", "4.17.20")], []⟩)
        [.file "package.json" "x"]).issues) ∧
    (AnalyzeSecurity (fun _ => some ⟨[("lodash", "4.17.20"), ("minimist", "1.2.5")], []⟩)
        [.file "package.json" "x"]).highSeverity =
      (AnalyzeSecurity (fun _ => some ⟨[("minimist", "1.2.5"), ("lodash", "4.17.20")], []⟩)
        [.file "package.json" "x"]).highSeverity := by
  have heq : OracleEquiv (fun _ => some ⟨[("lodash", "4.17.20"), ("minimist", "1.2.5")], []⟩)
      (fun _ => some ⟨[("minimist", "1.2.5"), ("lodash", "4.17.20")], []⟩) :=
    fun _ => ⟨List.Perm.swap _ _ _, List.Perm.refl []⟩
  have happ := c9_security_deterministic_up_to_map_order [.file "package.json" "x"] _ _ heq
  exact ⟨heq, happ.1, happ.2.2.1⟩

/-! ## The sensitive-file table's shadowed row (claim C10) -/

theorem containsSub_iff (s sub : String) :
    containsSub s sub = true ↔ sub.toList <:+: s.toList := by
  unfold containsSub
  rw [List.any_eq_true]
  constructor
  · rintro ⟨t, ht, hp⟩
    rw [List.mem_tails] at ht
    rw [ List.isPrefixOf_iff_prefix] at hp
    exact List.infix_iff_prefix_suffix.mpr ⟨t, hp, ht⟩
  · intro hin
    obtain ⟨t, hp, ht⟩ := List.infix_iff_prefix_suffix.mp hin
    exact ⟨t, (List.mem_tails _ _).mpr ht, List.isPrefixOf_iff_prefix.mpr hp⟩

/-- Claim C10 (amended): a lowercased path containing `.docker/config.json`
also contains `config.json`, so `findSensitiveFiles`' first-match scan
stops at or before the generic `config.json` row (position 7 of the
table): some row among the first seven wins, the `.docker/config.json` row
is never the winning match, and when none of the six earlier rows matches
the winner is exactly the generic `config.json` row. -/
theorem c10_docker_config_row_shadowed (p : String)
    (h : containsSub (asciiLower p) ".docker/config.json" = true) :
    (∃ e ∈ sensitivePatterns.take 7, sensMatch p = some e) ∧
    sensMatch p ≠ some ⟨".docker/config.json", "MEDIUM",
      "Docker configuration file may contain credentials"⟩ ∧
    ((∀ e ∈ sensitivePatterns.take 6, containsSub (asciiLower p) e.pattern = false) →
      sensMatch p = some ⟨"config.json", "MEDIUM",
        "Configuration file may contain sensitive information"⟩) := by
  have hsub : ("config.json".toList) <:+: (".docker/config.json".toList) :=
    (containsSub_iff ".docker/config.json" "config.json").mp (by decide)
  have hcj : containsSub (asciiLower p) "config.json" = true :=
    (containsSub_iff _ _).mpr (hsub.trans ((containsSub_iff _ _).mp h))
  have hsome : (List.find? (fun pat => containsSub (asciiLower p) pat.pattern)
      (sensitivePatterns.take 7)).isSome = true := by
    rw [List.find?_isSome]
    exact ⟨⟨"config.json", "MEDIUM", "Configuration file may contain sensitive information"⟩,
      by decide, hcj⟩
  obtain ⟨e, he⟩ := Option.isSome_iff_exists.mp hsome
  have hmem := List.mem_of_find?_eq_some he
  have hkey : sensMatch p = some e := by
    unfold sensMatch
    conv_lhs => rw [← List.take_append_drop 7 sensitivePatterns]
    rw [List.find?_append, he, Option.or_some]
  refine ⟨⟨e, hmem, hkey⟩, ?_, ?_⟩
  · intro hcontra
    rw [hkey] at hcontra
    injection hcontra with he2
    subst he2
    have hnot : (⟨".docker/config.json", "MEDIUM",
        "Docker configuration file may contain credentials"⟩ : SPat) ∉
        sensitivePatterns.take 7 := by decide
    exact hnot hmem
  · intro hall
    have hnone : List.find? (fun pat => containsSub (asciiLower p) pat.pattern)
        (sensitivePatterns.take 6) = none := by
      rw [List.find?_eq_none]
      intro x hx
      simp [hall x hx]
    have h76 : sensitivePatterns.take 7 = sensitivePatterns.take 6 ++
        [⟨"config.json", "MEDIUM", "Configuration file may contain sensitive information"⟩] := by
      decide
    unfold sensMatch
    conv_lhs => rw [← List.take_append_drop 7 sensitivePatterns]
    rw [List.find?_append, h76, List.find?_append, hnone, Option.none_or,
      @List.find?_cons_of_pos SPat (fun pat => containsSub (asciiLower p) pat.pattern)
        ⟨"config.json", "MEDIUM", "Configuration file may contain sensitive information"⟩ [] hcj,
      Option.or_some]

/-- Claim C10 counterexample: the file `.env/.docker/config.json` contains
`.docker/config.json`, yet its winning sensitive-file match is the `.env`
row (severity HIGH), not the generic `config.json` row (severity MEDIUM)
the claim promises for every such file. -/
theorem c10_counterexample :
    containsSub (asciiLower ".env/.docker/config.json") ".docker/config.json" = true ∧
    sensMatch ".env/.docker/config.json" =
      some ⟨".env", "HIGH", "Environment file may contain sensitive information"⟩ ∧
    (⟨".env", "HIGH", "Environment file may contain sensitive information"⟩ : SPat) ≠
      ⟨"config.json", "MEDIUM", "Configuration file may contain sensitive information"⟩ := by
  exact ⟨by decide, by decide, by decide⟩

/-- Witness for C10's amended theorem at a concrete path. -/
theorem c10_docker_config_row_shadowed_witness :
    containsSub (asciiLower "home/.docker/config.json") ".docker/config.json" = true ∧
    sensMatch "home/.docker/config.json" ≠ some ⟨".docker/config.json", "MEDIUM",
      "Docker configuration file may contain credentials"⟩ :=
  ⟨by decide, (c10_docker_config_row_shadowed "home/.docker/config.json" (by decide)).2.1⟩

/-! ## The remaining claims -/

/-- Claim C1 evaluated at its failing input: the tar entry named
`../dest-evil/x` resolves to `/tmp/dest-evil/x`, which lies outside the
destination `/tmp/dest`; yet the extractor's `strings.HasPrefix(target,
destDir)` test accepts it (the string `/tmp/dest` is a prefix of
`/tmp/dest-evil/x`), so extraction succeeds and creates the file outside
the destination instead of aborting with the path-traversal error.  A
plain `../x` escape, whose resolved path does not share the destination's
name as a string prefix, is caught as the spec demands — the slip is
exactly the missing trailing separator in the prefix check. -/
theorem c1_path_traversal_check_bug :
    outsideDest "/tmp/dest" (goJoin "/tmp/dest" "../dest-evil/x") = true ∧
    strStartsWith (goJoin "/tmp/dest" "../dest-evil/x") "/tmp/dest" = true ∧
    ExtractTar "/tmp/dest" [{ name := "../dest-evil/x", typeflag := .reg, body := "p" }] =
      .ok [("/tmp/dest-evil/x", .reg)] ∧
    ExtractTar "/tmp/dest" [{ name := "../x", typeflag := .reg, body := "p" }] =
      .error "invalid tar file: contains path traversal attack" := by
  exact ⟨by decide, by decide, by decide, by decide⟩

/-- Claim C2 evaluated at its failing input: the table stores the lodash
bound as the literal string `"<4.17.21"`, and the code compares the
declared version against that whole string, `<` character included.
Because every digit sorts below `<`, the version `4.17.21` — which is not
lexicographically below the bound `4.17.21` and is exactly the recommended
fixed version — is still flagged.  The spec's scenario itself does hold:
`lodash 4.17.20` yields exactly one finding recommending `>=4.17.21`. -/
theorem c2_version_bound_comparison_bug :
    strLtB "4.17.21" "4.17.21" = false ∧
    strLtB "4.17.21" "<4.17.21" = true ∧
    checkNodePackages ⟨[("lodash", "4.17.21")], []⟩ =
      [{ type := "VULNERABLE_PACKAGE", path := "package.json: lodash@4.17.21",
         description := "Prototype Pollution in lodash. Update to >=4.17.21",
         severity := "HIGH" }] ∧
    checkNodePackages ⟨[("lodash", "4.17.20")], []⟩ =
      [{ type := "VULNERABLE_PACKAGE", path := "package.json: lodash@4.17.20",
         description := "Prototype Pollution in lodash. Update to >=4.17.21",
         severity := "HIGH" }] := by
  exact ⟨by decide, by decide, by decide, by decide⟩

/-- Claim C6: secret scanning contributes at most one finding per scanned
line (the per-file finding list is a `filterMap` over the lines, and the
first matching pattern of a line wins); on a line both the `secret` and
the `password` patterns match, only the earlier `password` row's finding
is emitted; and the spec's scenario holds — a `config.js` whose first
line is `const password = 'supersecretpw';` yields exactly one
HARDCODED_SECRET finding at `config.js:1` with severity HIGH. -/
theorem c6_first_pattern_single_finding :
    (∀ relPath content : String,
      (fileSecrets relPath content).length ≤ (goLines content).length) ∧
    lineMatches ⟨["secret"], 8, "HIGH", "Hardcoded secret"⟩
      "secret = \x27abcdefgh\x27; password = \x27abcdefgh\x27" = true ∧
    fileSecrets "f" "secret = \x27abcdefgh\x27; password = \x27abcdefgh\x27" =
      [{ type := "HARDCODED_SECRET", path := "f:1",
         description := "Hardcoded password", severity := "HIGH" }] ∧
    findHardcodedSecrets (walk [.file "config.js" "const password = \x27supersecretpw\x27;"]) =
      [{ type := "HARDCODED_SECRET", path := "config.js:1",
         description := "Hardcoded password", severity := "HIGH" }] := by
  refine ⟨?_, by decide, by decide, by decide⟩
  intro relPath content
  unfold fileSecrets
  exact le_trans (List.length_filterMap_le _ _) (le_of_eq List.enumFrom_length)

/-- Claim C8: the aggregate analysis is total — it returns a report for
every combination of analyzer outcomes; a failing analyzer leaves exactly
its own sub-report absent while each other analyzer's result is stored
independently, and even three failures still return a report. -/
theorem c8_aggregate_failure_isolation (ip : String) (now : Nat)
    (dr : Except String DirectoryInfo) (sr : Except String SecurityResult)
    (zr : Except String SizeInfo) (e1 e2 e3 : String) :
    (AnalyzeImage ip now dr sr zr).imagePath = ip ∧
    (AnalyzeImage ip now dr sr zr).analyzedAt = now ∧
    (AnalyzeImage ip now dr sr zr).directoryInfo = dr.toOption ∧
    (AnalyzeImage ip now dr sr zr).securityInfo = sr.toOption ∧
    (AnalyzeImage ip now dr sr zr).sizeInfo = zr.toOption ∧
    AnalyzeImage ip now (.error e1) (.error e2) (.error e3) =
      { imagePath := ip, analyzedAt := now
        directoryInfo := none, securityInfo := none, sizeInfo := none } := by
  refine ⟨?_, ?_, ?_, ?_, ?_, ?_⟩ <;>
    cases dr <;> cases sr <;> cases zr <;> simp [AnalyzeImage, Except.toOption]

end Scallop
